import Mathlib

/-!
Shallow embedding of `riegeli::LinearSortedStringSet`
(src/riegeli/containers/linear_sorted_string_set.h) and the companion
encoding/decoding logic, together with proofs of the specified properties.

Byte strings (`absl::string_view` / `std::string` contents) are modelled as
`List Nat`, compared byte-lexicographically like `memcmp`-based
`absl::string_view` comparison. The encoded buffer (`CompactString encoded_`)
is a `List Nat` of bytes.
-/

set_option autoImplicit false

abbrev Byte := Nat

abbrev ByteString := List Byte

/-- Byte-lexicographic strict comparison, as `absl::string_view::operator<`. -/
def ltBytes : ByteString → ByteString → Bool
  | [], [] => false
  | [], _ :: _ => true
  | _ :: _, [] => false
  | a :: as, b :: bs => if a < b then true else if b < a then false else ltBytes as bs

/-- Byte-lexicographic non-strict comparison (`a <= b` iff `¬ b < a`). -/
def leBytes (a b : ByteString) : Bool := ! ltBytes b a

theorem ltBytes_irrefl (a : ByteString) : ltBytes a a = false := by
  induction a with
  | nil => rfl
  | cons x xs ih => simp [ltBytes, ih]

theorem ltBytes_asymm {a b : ByteString} (h : ltBytes a b = true) :
    ltBytes b a = false := by
  induction a generalizing b with
  | nil =>
    cases b with
    | nil => simp [ltBytes] at h
    | cons y ys => simp [ltBytes]
  | cons x xs ih =>
    cases b with
    | nil => simp [ltBytes] at h
    | cons y ys =>
      by_cases hxy : x < y
      · simp [ltBytes, hxy, Nat.lt_asymm hxy, Nat.ne_of_lt hxy]
      · by_cases hyx : y < x
        · simp [ltBytes, hxy, hyx] at h
        · have hxy2 : x = y := Nat.le_antisymm (Nat.le_of_not_lt hyx) (Nat.le_of_not_lt hxy)
          subst hxy2
          simp [ltBytes, hxy] at h ⊢
          exact ih h

theorem ltBytes_trans {a b c : ByteString} (hab : ltBytes a b = true)
    (hbc : ltBytes b c = true) : ltBytes a c = true := by
  induction a generalizing b c with
  | nil =>
    cases b with
    | nil => simp [ltBytes] at hab
    | cons y ys =>
      cases c with
      | nil => simp [ltBytes] at hbc
      | cons z zs => simp [ltBytes]
  | cons x xs ih =>
    cases b with
    | nil => simp [ltBytes] at hab
    | cons y ys =>
      cases c with
      | nil => simp [ltBytes] at hbc
      | cons z zs =>
        simp only [ltBytes] at hab hbc ⊢
        by_cases hxy : x < y
        · by_cases hyz : y < z
          · simp [Nat.lt_trans hxy hyz]
          · by_cases hzy : z < y
            · simp [hyz, hzy] at hbc
            · have : y = z := Nat.le_antisymm (Nat.le_of_not_lt hzy) (Nat.le_of_not_lt hyz)
              subst this
              simp [hxy]
        · by_cases hyx : y < x
          · simp [hxy, hyx] at hab
          · have : x = y := Nat.le_antisymm (Nat.le_of_not_lt hyx) (Nat.le_of_not_lt hxy)
            subst this
            simp [hxy] at hab
            by_cases hyz : x < z
            · simp [hyz]
            · by_cases hzy : z < x
              · simp [hyz, hzy] at hbc
              · have : x = z := Nat.le_antisymm (Nat.le_of_not_lt hzy) (Nat.le_of_not_lt hyz)
                subst this
                simp [hyz] at hbc ⊢
                exact ih hab hbc

theorem ltBytes_total (a b : ByteString) :
    ltBytes a b = true ∨ a = b ∨ ltBytes b a = true := by
  induction a generalizing b with
  | nil =>
    cases b with
    | nil => exact Or.inr (Or.inl rfl)
    | cons y ys => exact Or.inl (by simp [ltBytes])
  | cons x xs ih =>
    cases b with
    | nil => exact Or.inr (Or.inr (by simp [ltBytes]))
    | cons y ys =>
      by_cases hxy : x < y
      · exact Or.inl (by simp [ltBytes, hxy])
      · by_cases hyx : y < x
        · exact Or.inr (Or.inr (by simp [ltBytes, hyx]))
        · have : x = y := Nat.le_antisymm (Nat.le_of_not_lt hyx) (Nat.le_of_not_lt hxy)
          subst this
          rcases ih ys with h | h | h
          · exact Or.inl (by simp [ltBytes, h])
          · exact Or.inr (Or.inl (by rw [h]))
          · exact Or.inr (Or.inr (by simp [ltBytes, h]))

theorem ltBytes_of_ne_of_not_lt {a b : ByteString} (hne : a ≠ b)
    (h : ltBytes a b = false) : ltBytes b a = true := by
  rcases ltBytes_total a b with h1 | h1 | h1
  · rw [h1] at h; cases h
  · exact absurd h1 hne
  · exact h1

theorem eq_of_ltBytes_false_false {a b : ByteString}
    (h1 : ltBytes a b = false) (h2 : ltBytes b a = false) : a = b := by
  rcases ltBytes_total a b with h | h | h
  · rw [h] at h1; cases h1
  · exact h
  · rw [h] at h2; cases h2

/-! ### Varint encoding

Modelled from the spec: the "variable-length unsigned-integer encode/decode
primitive" (spec section 6) used by the entry codec; `WriteVarint64` /
`ReadVarint64` are not under src/, so they are modelled as standard LEB128
(7 data bits per byte, high bit set on all bytes except the last, least
significant group first). -/

/-- Fuel-driven worker for `writeVarint`; `fuel ≥ n` is always enough. -/
def writeVarintF : Nat → Nat → List Byte
  | 0, n => [n]
  | fuel + 1, n =>
    if n < 128 then [n] else (n % 128 + 128) :: writeVarintF fuel (n / 128)

/-- Modelled from the spec: LEB128 encoding of an unsigned integer. -/
def writeVarint (n : Nat) : List Byte := writeVarintF n n

theorem writeVarintF_congr (n : Nat) : ∀ f1 f2 : Nat, n ≤ f1 → n ≤ f2 →
    writeVarintF f1 n = writeVarintF f2 n := by
  induction n using Nat.strong_induction_on with
  | _ n ih =>
    intro f1 f2 h1 h2
    by_cases hn : n < 128
    · cases f1 with
      | zero =>
        have : n = 0 := Nat.le_zero.mp h1
        subst this
        cases f2 with
        | zero => rfl
        | succ f => simp [writeVarintF]
      | succ f =>
        cases f2 with
        | zero =>
          have : n = 0 := Nat.le_zero.mp h2
          subst this
          simp [writeVarintF]
        | succ g => simp [writeVarintF, hn]
    · have hn128 : 128 ≤ n := Nat.le_of_not_lt hn
      cases f1 with
      | zero => omega
      | succ f =>
        cases f2 with
        | zero => omega
        | succ g =>
          simp only [writeVarintF, if_neg hn]
          have hdiv : n / 128 < n := Nat.div_lt_self (by omega) (by omega)
          have hf : n / 128 ≤ f := by
            have : n / 128 ≤ n / 2 := Nat.div_le_div_left (by omega) (by omega)
            have : n / 2 ≤ n - 1 := by omega
            omega
          have hg : n / 128 ≤ g := by
            have : n / 128 ≤ n / 2 := Nat.div_le_div_left (by omega) (by omega)
            omega
          rw [ih (n / 128) hdiv f g hf hg]

theorem writeVarint_eq (n : Nat) :
    writeVarint n =
      if n < 128 then [n] else (n % 128 + 128) :: writeVarint (n / 128) := by
  by_cases hn : n < 128
  · cases hnn : n with
    | zero => simp [writeVarint, writeVarintF, hn]
    | succ m => simp [writeVarint, writeVarintF, hnn ▸ hn]
  · rw [if_neg hn]
    cases n with
    | zero => omega
    | succ m =>
      have h1 : (m + 1) / 128 ≤ m := by
        have : (m + 1) / 128 < m + 1 := Nat.div_lt_self (by omega) (by omega)
        omega
      show writeVarintF (m + 1) (m + 1) = _
      simp only [writeVarint, writeVarintF, if_neg hn]
      exact congrArg _
        (writeVarintF_congr ((m + 1) / 128) m ((m + 1) / 128) h1 (Nat.le_refl _))

/-- Modelled from the spec: LEB128 decoding; returns the value and the
remaining bytes, or `none` on a truncated input. -/
def readVarint : List Byte → Option (Nat × List Byte)
  | [] => none
  | b :: rest =>
    if b < 128 then some (b, rest)
    else
      match readVarint rest with
      | none => none
      | some (n, rest2) => some (n * 128 + (b - 128), rest2)

theorem readVarint_writeVarint (n : Nat) (tail : List Byte) :
    readVarint (writeVarint n ++ tail) = some (n, tail) := by
  induction n using Nat.strong_induction_on with
  | _ n ih =>
    by_cases hn : n < 128
    · rw [writeVarint_eq, if_pos hn]
      simp [readVarint, hn]
    · rw [writeVarint_eq, if_neg hn]
      have hb : ¬ n % 128 + 128 < 128 := by omega
      have hdiv : n / 128 < n := Nat.div_lt_self (by omega) (by omega)
      simp only [List.cons_append, readVarint, if_neg hb, List.append_eq,
        ih (n / 128) hdiv]
      have hdm := Nat.div_add_mod n 128
      simp
      omega

theorem readVarint_length {l : List Byte} {n : Nat} {rest : List Byte}
    (h : readVarint l = some (n, rest)) : rest.length < l.length := by
  induction l generalizing n rest with
  | nil => simp [readVarint] at h
  | cons b bs ih =>
    simp only [readVarint] at h
    by_cases hb : b < 128
    · rw [if_pos hb] at h
      cases h
      simp
    · rw [if_neg hb] at h
      cases hr : readVarint bs with
      | none => rw [hr] at h; cases h
      | some p =>
        rw [hr] at h
        cases p with
        | mk m rest2 =>
          simp at h
          have := ih hr
          simp [← h.2]
          omega

theorem readVarint_append {l : List Byte} {n : Nat} {rest : List Byte}
    (h : readVarint l = some (n, rest)) (m : List Byte) :
    readVarint (l ++ m) = some (n, rest ++ m) := by
  induction l generalizing n rest with
  | nil => simp [readVarint] at h
  | cons b bs ih =>
    simp only [readVarint, List.cons_append] at h ⊢
    by_cases hb : b < 128
    · rw [if_pos hb] at h ⊢
      cases h
      rfl
    · rw [if_neg hb] at h ⊢
      cases hr : readVarint bs with
      | none => rw [hr] at h; cases h
      | some p =>
        rw [hr] at h
        cases p with
        | mk k rest2 =>
          simp at h
          simp only [List.append_eq] at *
          rw [ih hr]
          simp [h.1, h.2]

theorem writeVarint_ne_nil (n : Nat) : writeVarint n ≠ [] := by
  rw [writeVarint_eq]
  by_cases hn : n < 128 <;> simp [hn]

/-! ### Entry codec

The byte layout documented in `linear_sorted_string_set.h` (lines 166-173):
each element other than the first consists of the prefix of the previous
element with length `shared_length`, concatenated with `unshared`, where
`tagged_length = (unshared_length << 1) | (shared_length > 0 ? 1 : 0)`;
`shared_length` is stored only when it is nonzero; the first element is
encoded with `shared_length = 0`. -/

/-- Encoding of one entry, as appended by `Builder::InsertNextImpl`:
`tagged_length` varint, then `shared_length` varint when positive, then the
unshared suffix bytes. -/
def encodeEntry (shared : Nat) (unshared : ByteString) : List Byte :=
  writeVarint (2 * unshared.length + (if 0 < shared then 1 else 0)) ++
    (if 0 < shared then writeVarint shared else []) ++ unshared

/-- Modelled from the spec: the decoding step of
`LinearSortedStringSet::Iterator::Next` (defined in the .cc file, which is
not under src/), following the decode contract of spec section 4.1: read
`tagged_length`, read `shared_length` when the low tag bit is set, then take
`unshared_length = tagged_length >> 1` raw bytes; the element is
`prev[0 .. shared_length)` concatenated with the unshared bytes. -/
def decodeEntry (prev : ByteString) (bytes : List Byte) :
    Option (ByteString × List Byte) :=
  match readVarint bytes with
  | none => none
  | some (tagged, rest) =>
    if tagged % 2 = 1 then
      match readVarint rest with
      | none => none
      | some (shared, rest2) =>
        if tagged / 2 ≤ rest2.length then
          some (prev.take shared ++ rest2.take (tagged / 2), rest2.drop (tagged / 2))
        else none
    else
      if tagged / 2 ≤ rest.length then
        some (rest.take (tagged / 2), rest.drop (tagged / 2))
      else none

theorem decodeEntry_encodeEntry (prev : ByteString) (shared : Nat)
    (unshared : ByteString) (more : List Byte) :
    decodeEntry prev (encodeEntry shared unshared ++ more) =
      some (prev.take shared ++ unshared, more) := by
  have hta : (unshared ++ more).take unshared.length = unshared :=
    List.take_left' rfl
  have htd : (unshared ++ more).drop unshared.length = more :=
    List.drop_left' rfl
  by_cases hs : 0 < shared
  · have htag : (2 * unshared.length + 1) % 2 = 1 := by omega
    have htag2 : (2 * unshared.length + 1) / 2 = unshared.length := by omega
    simp only [encodeEntry, if_pos hs, List.append_assoc]
    simp [decodeEntry, readVarint_writeVarint, htag, htag2, hta, htd]
  · have hs0 : shared = 0 := by omega
    subst hs0
    have htag : (2 * unshared.length + 0) % 2 = 0 := by omega
    have htag2 : (2 * unshared.length + 0) / 2 = unshared.length := by omega
    simp only [encodeEntry, if_neg hs, List.append_assoc, List.nil_append]
    simp [decodeEntry, readVarint_writeVarint, htag, htag2, hta, htd]

theorem decodeEntry_length {prev : ByteString} {bytes : List Byte}
    {e : ByteString} {rest : List Byte}
    (h : decodeEntry prev bytes = some (e, rest)) :
    rest.length < bytes.length := by
  cases h1 : readVarint bytes with
  | none => simp [decodeEntry, h1] at h
  | some p =>
    cases p with
    | mk tagged rest1 =>
      simp only [decodeEntry, h1] at h
      have hlen1 := readVarint_length h1
      by_cases ht : tagged % 2 = 1
      · rw [if_pos ht] at h
        cases h2 : readVarint rest1 with
        | none => simp [h2] at h
        | some q =>
          cases q with
          | mk shared rest2 =>
            simp only [h2] at h
            have hlen2 := readVarint_length h2
            by_cases hle : tagged / 2 ≤ rest2.length
            · rw [if_pos hle] at h
              simp at h
              rw [← h.2]
              simp
              omega
            · rw [if_neg hle] at h; cases h
      · rw [if_neg ht] at h
        by_cases hle : tagged / 2 ≤ rest1.length
        · rw [if_pos hle] at h
          simp at h
          rw [← h.2]
          simp
          omega
        · rw [if_neg hle] at h; cases h

theorem decodeEntry_append {prev : ByteString} {bytes : List Byte}
    {e : ByteString} {rest : List Byte}
    (h : decodeEntry prev bytes = some (e, rest)) (m : List Byte) :
    decodeEntry prev (bytes ++ m) = some (e, rest ++ m) := by
  cases h1 : readVarint bytes with
  | none => simp [decodeEntry, h1] at h
  | some p =>
    cases p with
    | mk tagged rest1 =>
      simp only [decodeEntry, h1] at h
      simp only [decodeEntry, readVarint_append h1 m]
      by_cases ht : tagged % 2 = 1
      · rw [if_pos ht] at h ⊢
        cases h2 : readVarint rest1 with
        | none => simp [h2] at h
        | some q =>
          cases q with
          | mk shared rest2 =>
            simp only [h2] at h
            simp only [readVarint_append h2 m]
            by_cases hle : tagged / 2 ≤ rest2.length
            · rw [if_pos hle] at h
              simp at h
              rw [if_pos (by simp; omega : tagged / 2 ≤ (rest2 ++ m).length),
                List.take_append_of_le_length hle,
                List.drop_append_eq_append_drop]
              have hd : tagged / 2 - rest2.length = 0 := by omega
              rw [hd]
              simp [← h.1, ← h.2]
            · rw [if_neg hle] at h; cases h
      · rw [if_neg ht] at h ⊢
        by_cases hle : tagged / 2 ≤ rest1.length
        · rw [if_pos hle] at h
          simp at h
          rw [if_pos (by simp; omega : tagged / 2 ≤ (rest1 ++ m).length),
            List.take_append_of_le_length hle,
            List.drop_append_eq_append_drop]
          have hd : tagged / 2 - rest1.length = 0 := by omega
          rw [hd]
          simp [← h.1, ← h.2]
        · rw [if_neg hle] at h; cases h

/-! ### Iterator decoding loop -/

/-- Fuel-driven worker decoding all remaining entries; fuel larger than the
byte count is always enough since every entry consumes at least one byte. -/
def iterListFromF : Nat → ByteString → List Byte → List ByteString
  | 0, _, _ => []
  | fuel + 1, prev, bytes =>
    match decodeEntry prev bytes with
    | none => []
    | some (e, rest) => e :: iterListFromF fuel e rest

theorem iterListFromF_congr : ∀ f1 f2 : Nat, ∀ (prev : ByteString)
    (bytes : List Byte), bytes.length < f1 → bytes.length < f2 →
    iterListFromF f1 prev bytes = iterListFromF f2 prev bytes := by
  intro f1
  induction f1 with
  | zero => intro f2 prev bytes h1; omega
  | succ g1 ih =>
    intro f2 prev bytes h1 h2
    cases f2 with
    | zero => omega
    | succ g2 =>
      simp only [iterListFromF]
      cases hd : decodeEntry prev bytes with
      | none => rfl
      | some p =>
        cases p with
        | mk e rest =>
          have hlen := decodeEntry_length hd
          exact congrArg _ (ih g2 e rest (by omega) (by omega))

/-- Decoding the elements reachable from a cursor: repeated
`Iterator::Next` until `end()` (spec 4.4 Advance). -/
def iterListFrom (prev : ByteString) (bytes : List Byte) : List ByteString :=
  iterListFromF (bytes.length + 1) prev bytes

theorem iterListFrom_eq (prev : ByteString) (bytes : List Byte) :
    iterListFrom prev bytes =
      match decodeEntry prev bytes with
      | none => []
      | some (e, rest) => e :: iterListFrom e rest := by
  show iterListFromF (bytes.length + 1) prev bytes = _
  simp only [iterListFromF]
  cases hd : decodeEntry prev bytes with
  | none => rfl
  | some p =>
    cases p with
    | mk e rest =>
      have hlen := decodeEntry_length hd
      exact congrArg _
        (iterListFromF_congr bytes.length (rest.length + 1) e rest (by omega) (by omega))

theorem iterListFrom_nil (prev : ByteString) : iterListFrom prev [] = [] := rfl

theorem iterListFrom_entry (prev : ByteString) (shared : Nat)
    (unshared : ByteString) (more : List Byte) :
    iterListFrom prev (encodeEntry shared unshared ++ more) =
      (prev.take shared ++ unshared) ::
        iterListFrom (prev.take shared ++ unshared) more := by
  rw [iterListFrom_eq, decodeEntry_encodeEntry]

/-! ### The Set value type and its operations -/

/-- The immutable value type `LinearSortedStringSet`: wraps one encoded
buffer (`CompactString encoded_`). -/
structure LinearSortedStringSet where
  encoded : List Byte
deriving DecidableEq

/-- A default-constructed (empty) set. -/
def LinearSortedStringSet.emptySet : LinearSortedStringSet := ⟨[]⟩

/-- Decoded element sequence of the set: what iterating from `begin()` to
`end()` yields, each step decoding one entry per the entry codec. -/
def LinearSortedStringSet.elems (s : LinearSortedStringSet) : List ByteString :=
  iterListFrom [] s.encoded

/-- Source `empty()`: `encoded_.empty()`. -/
def LinearSortedStringSet.empty (s : LinearSortedStringSet) : Bool :=
  s.encoded.isEmpty

/-- Iterator state: `none` models `cursor_ == nullptr` (`end()`); otherwise
the current decoded element together with the remaining bytes after it. -/
abbrev SetIterator := Option (ByteString × List Byte)

/-- Source `begin()`: constructs `Iterator(encoded_)`, which immediately
decodes the first entry (or becomes `end()` on an empty buffer). -/
def LinearSortedStringSet.beginIter (s : LinearSortedStringSet) : SetIterator :=
  decodeEntry [] s.encoded

/-- Source `end()`: the sentinel iterator. -/
def LinearSortedStringSet.endIter : SetIterator := none

/-- Source `Iterator::operator*`: fatal (`RIEGELI_ASSERT`, modelled as
`none`) on `end()`, otherwise the current element. -/
def iterDeref : SetIterator → Option ByteString
  | none => none
  | some (cur, _) => some cur

/-- Source `Iterator::operator++` / `Next()`: fatal (modelled as `none`) on
`end()`, otherwise decodes the next entry, reaching `end()` when no bytes
remain. -/
def iterAdvance : SetIterator → Option SetIterator
  | none => none
  | some (cur, rest) => some (decodeEntry cur rest)

/-- The elements produced by dereferencing and advancing an iterator until
`end()`. -/
def iterToList : SetIterator → List ByteString
  | none => []
  | some (cur, rest) => cur :: iterListFrom cur rest

theorem iterToList_beginIter (s : LinearSortedStringSet) :
    iterToList s.beginIter = s.elems := by
  rw [LinearSortedStringSet.elems, iterListFrom_eq, LinearSortedStringSet.beginIter]
  cases hd : decodeEntry [] s.encoded with
  | none => rfl
  | some p => cases p with | mk e rest => rfl

/-- Modelled from the spec: `size()` performs a full decode pass and counts
the elements (the .cc definition is not under src/). -/
def LinearSortedStringSet.size (s : LinearSortedStringSet) : Nat :=
  s.elems.length

/-- Modelled from the spec: `first()` decodes only the first entry;
precondition (fatal): the set is not empty. -/
def LinearSortedStringSet.firstElem (s : LinearSortedStringSet) : Option ByteString :=
  s.elems.head?

/-- Modelled from the spec: the scanning loop of `contains()` — compare each
decoded element in order, `true` on exact match, `false` as soon as a
decoded element is strictly greater (the .cc definition is not under
src/). -/
def containsFrom (x : ByteString) : List ByteString → Bool
  | [] => false
  | e :: rest =>
    if e = x then true else if ltBytes x e then false else containsFrom x rest

/-- Source `contains(element)` (declared in the header, defined in the .cc
file): scan the decoded sequence with `containsFrom`. -/
def LinearSortedStringSet.contains (s : LinearSortedStringSet)
    (x : ByteString) : Bool :=
  containsFrom x s.elems

/-- Modelled from the spec: element-by-element comparison of two decoded
sequences, short-circuiting on the first mismatch (`EqualImpl`, defined in
the .cc file, which is not under src/). -/
def equalSeq : List ByteString → List ByteString → Bool
  | [], [] => true
  | [], _ :: _ => false
  | _ :: _, [] => false
  | a :: as, b :: bs => if a = b then equalSeq as bs else false

/-- Source `operator==`: `EqualImpl(a, b)` over decoded sequences. -/
def LinearSortedStringSet.EqualImpl (a b : LinearSortedStringSet) : Bool :=
  equalSeq a.elems b.elems

/-- Modelled from the spec: lexicographic comparison of the two decoded
sequences as ordered lists of strings (`LessImpl`, defined in the .cc file,
which is not under src/). -/
def lessSeq : List ByteString → List ByteString → Bool
  | [], [] => false
  | [], _ :: _ => true
  | _ :: _, [] => false
  | a :: as, b :: bs => if a = b then lessSeq as bs else ltBytes a b

/-- Source `operator<`: `LessImpl(a, b)` over decoded sequences. -/
def LinearSortedStringSet.LessImpl (a b : LinearSortedStringSet) : Bool :=
  lessSeq a.elems b.elems

/-- Source `AbslHashValueImpl` (defined in the header): fold an abstract
`HashState::combine` over every decoded element in iteration order, then
combine the element count. -/
def LinearSortedStringSet.AbslHashValueImpl
    (combine : Nat → ByteString → Nat) (combineSize : Nat → Nat → Nat)
    (hashState : Nat) (s : LinearSortedStringSet) : Nat :=
  combineSize (s.elems.foldl combine hashState) s.elems.length

/-! ### Builder -/

/-- Builder state: the growable encoded buffer written so far (`writer_`,
whose `pos()` is the buffer length) and the last inserted element
(`last_`). -/
structure Builder where
  encoded : List Byte
  lastInserted : ByteString
deriving DecidableEq

/-- A newly constructed `Builder`: nothing written, `last_` empty. -/
def Builder.init : Builder := ⟨[], []⟩

/-- Source `Builder::empty()`: `writer_.pos() == 0`. -/
def Builder.emptyB (b : Builder) : Bool := b.encoded.isEmpty

/-- Source `Builder::last()`: fatal (`RIEGELI_ASSERT`, modelled as `none`)
on an empty builder, otherwise `last_`. -/
def Builder.lastChecked (b : Builder) : Option ByteString :=
  if b.encoded.isEmpty then none else some b.lastInserted

/-- Modelled from the spec: the shared-prefix length computed by the
Builder between the last inserted element and the new one — the longest
common prefix, as recommended by spec 4.2 (the .cc definition is not under
src/). -/
def sharedLength : ByteString → ByteString → Nat
  | a :: as, b :: bs => if a = b then sharedLength as bs + 1 else 0
  | _, _ => 0

theorem sharedLength_take {a b : ByteString} :
    a.take (sharedLength a b) = b.take (sharedLength a b) := by
  induction a generalizing b with
  | nil => cases b <;> simp [sharedLength]
  | cons x xs ih =>
    cases b with
    | nil => simp [sharedLength]
    | cons y ys =>
      by_cases hxy : x = y
      · subst hxy
        simp [sharedLength, ih]
      · simp [sharedLength, hxy]

/-- Outcome of `TryInsertNext` (`absl::StatusOr<bool>`): value `true`,
value `false`, or `absl::FailedPreconditionError`. -/
inductive InsertResult where
  | inserted
  | duplicate
  | outOfOrder
deriving DecidableEq

/-- Modelled from the spec: `Builder::InsertNextImpl`
(linear_sorted_string_set.cc, not under src/). On an empty builder any
element is inserted with no shared prefix (the first entry always has
`has_shared = 0`); otherwise an element equal to `last_` is absorbed
(`false`), an element less than `last_` is a precondition violation leaving
the builder unchanged, and a greater element is appended as one entry with
the computed shared length, `last_` becoming the element. -/
def Builder.tryInsertNext (b : Builder) (element : ByteString) :
    InsertResult × Builder :=
  if b.encoded.isEmpty then
    (.inserted, ⟨b.encoded ++ encodeEntry 0 element, element⟩)
  else if element = b.lastInserted then (.duplicate, b)
  else if ltBytes element b.lastInserted then (.outOfOrder, b)
  else
    (.inserted,
      ⟨b.encoded ++
          encodeEntry (sharedLength b.lastInserted element)
            (element.drop (sharedLength b.lastInserted element)),
        element⟩)

/-- Source `Builder::InsertNext`: same as `TryInsertNext` except that an
out-of-order element is a fatal contract violation (modelled as `none`). -/
def Builder.insertNext (b : Builder) (element : ByteString) :
    Option (Bool × Builder) :=
  match b.tryInsertNext element with
  | (.inserted, b2) => some (true, b2)
  | (.duplicate, b2) => some (false, b2)
  | (.outOfOrder, _) => none

/-- The builder-state component of `tryInsertNext`, used to fold a sequence
of insertions (`FromSorted` / `FromUnsorted` call `InsertNext` on each
element; on the sorted inputs they are specified for, `InsertNext` and
`TryInsertNext` transform the builder identically). -/
def Builder.insertStep (b : Builder) (element : ByteString) : Builder :=
  (b.tryInsertNext element).2

/-- Modelled from the spec: `Builder::Reset()` — "Makes `*this` equivalent
to a newly constructed `Builder`" (the .cc definition is not under src/). -/
def Builder.reset (_ : Builder) : Builder := Builder.init

/-- Modelled from the spec: `Builder::Build()` — moves the finished buffer
into a `LinearSortedStringSet` (the .cc definition is not under src/). -/
def Builder.build (b : Builder) : LinearSortedStringSet := ⟨b.encoded⟩

/-- Source `FromSorted` (header, lines 446-458): feed every element of
`src`, in order, to a fresh `Builder` via `InsertNext`, then `Build`. -/
def LinearSortedStringSet.FromSorted (src : List ByteString) :
    LinearSortedStringSet :=
  (src.foldl Builder.insertStep Builder.init).build

/-- Insertion into a sorted list, keeping order. -/
def insertSorted (x : ByteString) : List ByteString → List ByteString
  | [] => [x]
  | y :: rest => if leBytes x y then x :: y :: rest else y :: insertSorted x rest

/-- Modelled from the spec: `std::sort` over the decoded element values —
`FromUnsorted` sorts (references to) the input elements by value before
inserting. Modelled as insertion sort, which produces the same value
sequence: a byte-lexicographically non-decreasing permutation of the
input. -/
def sortStrings : List ByteString → List ByteString
  | [] => []
  | x :: rest => insertSorted x (sortStrings rest)

/-- Source `FromUnsorted` (header, lines 460-487): sort the input elements
by value, then proceed exactly as `FromSorted` over the sorted order. -/
def LinearSortedStringSet.FromUnsorted (src : List ByteString) :
    LinearSortedStringSet :=
  LinearSortedStringSet.FromSorted (sortStrings src)

/-! ### Builder correctness: the built buffer decodes to the inserted
sequence -/

theorem encodeEntry_ne_nil (shared : Nat) (unshared : ByteString) :
    encodeEntry shared unshared ≠ [] := by
  rw [encodeEntry]
  intro h
  rcases List.append_eq_nil.mp h with ⟨h1, _⟩
  rcases List.append_eq_nil.mp h1 with ⟨h2, _⟩
  exact writeVarint_ne_nil _ h2

/-- Strict byte-lexicographic ascent of a decoded element sequence: the Set
invariant of spec section 3. -/
abbrev StrictAscending (L : List ByteString) : Prop :=
  List.Chain' (fun x y => ltBytes x y = true) L

/-- Coherence between a `Builder` state and the sequence of elements
committed so far: the written buffer decodes to exactly that sequence (in
any continuation), `last_` is its last element, and the buffer is empty iff
no element was committed. -/
def BuildsTo (b : Builder) (L : List ByteString) : Prop :=
  (∀ more : List Byte,
      iterListFrom [] (b.encoded ++ more) =
        L ++ iterListFrom b.lastInserted more) ∧
  b.lastInserted = L.getLastD [] ∧ (b.encoded = [] ↔ L = [])

theorem BuildsTo_init : BuildsTo Builder.init [] := by
  refine ⟨fun more => ?_, rfl, by simp [Builder.init]⟩
  simp [Builder.init]

theorem BuildsTo_insert {b : Builder} {L : List ByteString} {e : ByteString}
    (hb : BuildsTo b L)
    (h : b.encoded = [] ∨ ltBytes b.lastInserted e = true) :
    (b.tryInsertNext e).1 = InsertResult.inserted ∧
      BuildsTo (b.tryInsertNext e).2 (L ++ [e]) := by
  obtain ⟨hdec, hlast, hemp⟩ := hb
  by_cases he : b.encoded = []
  · have hL : L = [] := hemp.mp he
    subst hL
    constructor
    · simp [Builder.tryInsertNext, he]
    · refine ⟨fun more => ?_, ?_, ?_⟩
      · simp only [Builder.tryInsertNext, he, List.isEmpty_nil, if_true]
        rw [List.append_assoc]
        simp only [List.nil_append]
        rw [iterListFrom_entry]
        simp
      · simp [Builder.tryInsertNext, he]
      · simp only [Builder.tryInsertNext, he, List.isEmpty_nil, if_true]
        simp [encodeEntry_ne_nil]
  · have hlt : ltBytes b.lastInserted e = true := by
      rcases h with h | h
      · exact absurd h he
      · exact h
    have hne : e ≠ b.lastInserted := by
      intro hcontra
      rw [hcontra] at hlt
      rw [ltBytes_irrefl] at hlt
      cases hlt
    have hnlt : ltBytes e b.lastInserted = false := ltBytes_asymm hlt
    have hisEmpty : b.encoded.isEmpty = false := by
      cases hb2 : b.encoded with
      | nil => exact absurd hb2 he
      | cons x xs => rfl
    have hstep : b.tryInsertNext e =
        (InsertResult.inserted,
          ⟨b.encoded ++
              encodeEntry (sharedLength b.lastInserted e)
                (e.drop (sharedLength b.lastInserted e)), e⟩) := by
      rw [Builder.tryInsertNext]
      simp [hisEmpty, hne, hnlt]
    have hrebuild :
        b.lastInserted.take (sharedLength b.lastInserted e) ++
          e.drop (sharedLength b.lastInserted e) = e := by
      rw [sharedLength_take, List.take_append_drop]
    rw [hstep]
    refine ⟨rfl, fun more => ?_, ?_, ?_⟩
    · show iterListFrom [] (b.encoded ++ _ ++ more) = _
      rw [List.append_assoc, hdec, iterListFrom_entry, hrebuild]
      simp
    · simp [List.getLastD_concat]
    · constructor
      · intro hcontra
        rcases List.append_eq_nil.mp hcontra with ⟨h1, _⟩
        exact absurd h1 he
      · intro hcontra
        exact absurd (List.append_eq_nil.mp hcontra).2 (by simp)

theorem chain'_last_head {L S : List ByteString} {e : ByteString}
    (hc : List.Chain' (fun x y => ltBytes x y = true) (L ++ e :: S))
    (hL : L ≠ []) : ltBytes (L.getLastD []) e = true := by
  rw [List.chain'_append] at hc
  obtain ⟨_, _, hlink⟩ := hc
  have hsome : L.getLast? = some (L.getLast hL) := List.getLast?_eq_getLast L hL
  have := hlink (L.getLast hL) (by rw [hsome]; rfl) e rfl
  rw [List.getLastD_eq_getLast?, hsome]
  exact this

theorem foldl_insertStep : ∀ (S : List ByteString) (b : Builder)
    (L : List ByteString), BuildsTo b L → StrictAscending (L ++ S) →
    BuildsTo (S.foldl Builder.insertStep b) (L ++ S) := by
  intro S
  induction S with
  | nil =>
    intro b L hb _
    simpa using hb
  | cons e S2 ih =>
    intro b L hb hc
    have hlink : b.encoded = [] ∨ ltBytes b.lastInserted e = true := by
      by_cases hL : L = []
      · exact Or.inl (hb.2.2.mpr hL)
      · refine Or.inr ?_
        rw [hb.2.1]
        exact chain'_last_head hc hL
    have hins := BuildsTo_insert hb hlink
    have hstep : Builder.insertStep b e = (b.tryInsertNext e).2 := rfl
    have hnext := ih (b.tryInsertNext e).2 (L ++ [e]) hins.2
      (by rw [List.append_assoc]; simpa using hc)
    rw [List.foldl_cons, hstep]
    simpa using hnext

/-- Decoding a buffer built by folding `InsertNext` over a strictly
ascending sequence recovers exactly that sequence. -/
theorem FromSorted_elems {S : List ByteString} (h : StrictAscending S) :
    (LinearSortedStringSet.FromSorted S).elems = S := by
  have hb := foldl_insertStep S Builder.init [] BuildsTo_init (by simpa using h)
  rw [List.nil_append] at hb
  have := hb.1 []
  rw [List.append_nil, iterListFrom_nil, List.append_nil] at this
  exact this

/-! ### Comparison and membership lemmas -/

theorem equalSeq_iff (L M : List ByteString) : equalSeq L M = true ↔ L = M := by
  induction L generalizing M with
  | nil =>
    cases M with
    | nil => simp [equalSeq]
    | cons y ys => simp [equalSeq]
  | cons x xs ih =>
    cases M with
    | nil => simp [equalSeq]
    | cons y ys =>
      by_cases hxy : x = y
      · subst hxy
        simp [equalSeq, ih]
      · simp [equalSeq, hxy]

theorem ascending_head_lt {e : ByteString} {rest : List ByteString}
    (h : StrictAscending (e :: rest)) : ∀ y ∈ rest, ltBytes e y = true := by
  induction rest generalizing e with
  | nil => simp
  | cons f rest2 ih =>
    intro y hy
    have hef : ltBytes e f = true := (List.chain'_cons.mp h).1
    have htail : StrictAscending (f :: rest2) := (List.chain'_cons.mp h).2
    rcases List.mem_cons.mp hy with hy | hy
    · rw [hy]
      exact hef
    · exact ltBytes_trans hef (ih htail y hy)

theorem containsFrom_iff {L : List ByteString} (h : StrictAscending L)
    (x : ByteString) : containsFrom x L = true ↔ x ∈ L := by
  induction L with
  | nil => simp [containsFrom]
  | cons e rest ih =>
    have htail : StrictAscending rest := h.tail
    by_cases hex : e = x
    · subst hex
      simp [containsFrom]
    · by_cases hlt : ltBytes x e = true
      · have hnot : x ∉ e :: rest := by
          intro hmem
          rcases List.mem_cons.mp hmem with hmem | hmem
          · exact hex hmem.symm
          · have := ascending_head_lt h x hmem
            have := ltBytes_trans hlt this
            rw [ltBytes_irrefl] at this
            cases this
        simp [containsFrom, hex, hlt, hnot]
      · have hlt2 : ltBytes x e = false := by
          cases h2 : ltBytes x e with
          | false => rfl
          | true => exact absurd h2 hlt
        rw [containsFrom]
        rw [if_neg hex, if_neg (by rw [hlt2]; exact Bool.false_ne_true)]
        rw [ih htail]
        constructor
        · intro hmem
          exact List.mem_cons_of_mem e hmem
        · intro hmem
          rcases List.mem_cons.mp hmem with hmem | hmem
          · exact absurd hmem.symm hex
          · exact hmem

theorem leBytes_trans {a b c : ByteString} (h1 : leBytes a b = true)
    (h2 : leBytes b c = true) : leBytes a c = true := by
  rw [leBytes, Bool.not_eq_true'] at h1 h2
  rw [leBytes, Bool.not_eq_true']
  cases h3 : ltBytes c a with
  | false => rfl
  | true =>
    rcases ltBytes_total a b with h4 | h4 | h4
    · have := ltBytes_trans h3 h4
      rw [this] at h2
      cases h2
    · subst h4
      rw [h3] at h2
      cases h2
    · rw [h4] at h1
      cases h1

theorem leBytes_of_not_leBytes {a b : ByteString} (h : leBytes a b = false) :
    leBytes b a = true := by
  rw [leBytes, Bool.not_eq_false'] at h
  rw [leBytes, Bool.not_eq_true']
  exact ltBytes_asymm h

theorem leBytes_antisymm {a b : ByteString} (h1 : leBytes a b = true)
    (h2 : leBytes b a = true) : a = b := by
  rw [leBytes, Bool.not_eq_true'] at h1 h2
  exact eq_of_ltBytes_false_false h2 h1

/-! ### Sorting lemmas (model of the `std::sort` pass of `FromUnsorted`) -/

theorem mem_insertSorted (x y : ByteString) (l : List ByteString) :
    y ∈ insertSorted x l ↔ y = x ∨ y ∈ l := by
  induction l with
  | nil => simp [insertSorted]
  | cons z zs ih =>
    by_cases hle : leBytes x z = true
    · simp [insertSorted, hle]
    · rw [insertSorted, if_neg hle]
      simp only [List.mem_cons, ih]
      tauto

theorem perm_insertSorted (x : ByteString) (l : List ByteString) :
    (insertSorted x l).Perm (x :: l) := by
  induction l with
  | nil => exact List.Perm.refl _
  | cons z zs ih =>
    by_cases hle : leBytes x z = true
    · rw [insertSorted, if_pos hle]
    · rw [insertSorted, if_neg hle]
      exact ((ih.cons z).trans (List.Perm.swap x z zs))

theorem perm_sortStrings (l : List ByteString) : (sortStrings l).Perm l := by
  induction l with
  | nil => exact List.Perm.refl _
  | cons x xs ih =>
    rw [sortStrings]
    exact (perm_insertSorted x (sortStrings xs)).trans (ih.cons x)

theorem pairwise_insertSorted {x : ByteString} {l : List ByteString}
    (h : List.Pairwise (fun a b => leBytes a b = true) l) :
    List.Pairwise (fun a b => leBytes a b = true) (insertSorted x l) := by
  induction l with
  | nil => simp [insertSorted]
  | cons z zs ih =>
    rcases List.pairwise_cons.mp h with ⟨hz, hzs⟩
    by_cases hle : leBytes x z = true
    · rw [insertSorted, if_pos hle]
      refine List.pairwise_cons.mpr ⟨?_, h⟩
      intro y hy
      rcases List.mem_cons.mp hy with hy | hy
      · rw [hy]; exact hle
      · exact leBytes_trans hle (hz y hy)
    · rw [insertSorted, if_neg hle]
      have hzx : leBytes z x = true :=
        leBytes_of_not_leBytes (Bool.not_eq_true _ ▸ Bool.eq_false_iff.mpr hle)
      refine List.pairwise_cons.mpr ⟨?_, ih hzs⟩
      intro y hy
      rcases (mem_insertSorted x y zs).mp hy with hy | hy
      · rw [hy]; exact hzx
      · exact hz y hy

theorem pairwise_sortStrings (l : List ByteString) :
    List.Pairwise (fun a b => leBytes a b = true) (sortStrings l) := by
  induction l with
  | nil => simp [sortStrings]
  | cons x xs ih =>
    rw [sortStrings]
    exact pairwise_insertSorted ih

theorem sorted_perm_unique : ∀ {l1 l2 : List ByteString}, l1.Perm l2 →
    List.Pairwise (fun a b => leBytes a b = true) l1 →
    List.Pairwise (fun a b => leBytes a b = true) l2 → l1 = l2 := by
  intro l1
  induction l1 with
  | nil =>
    intro l2 hp _ _
    exact (hp.symm.eq_nil).symm
  | cons x xs ih =>
    intro l2 hp h1 h2
    cases l2 with
    | nil => exact absurd hp.eq_nil (by simp)
    | cons y ys =>
      rcases List.pairwise_cons.mp h1 with ⟨hx, hxs⟩
      rcases List.pairwise_cons.mp h2 with ⟨hy, hys⟩
      have hxy : x = y := by
        have hxmem : x ∈ y :: ys := hp.mem_iff.mp (List.mem_cons_self x xs)
        have hymem : y ∈ x :: xs := hp.symm.mem_iff.mp (List.mem_cons_self y ys)
        rcases List.mem_cons.mp hxmem with h3 | h3
        · exact h3
        · rcases List.mem_cons.mp hymem with h4 | h4
          · exact h4.symm
          · exact leBytes_antisymm (hx y h4) (hy x h3)
      subst hxy
      have htail : xs.Perm ys := hp.cons_inv
      rw [ih htail hxs hys]

/-! ### Duplicate absorption -/

/-- Removal of adjacent duplicates from a (sorted) sequence: the
deduplicated ascending element sequence that the Builder actually
commits. -/
def dedupSorted : List ByteString → List ByteString
  | [] => []
  | [a] => [a]
  | a :: b :: rest =>
    if a = b then dedupSorted (b :: rest) else a :: dedupSorted (b :: rest)

theorem insertStep_idem (b : Builder) (e : ByteString) :
    (b.insertStep e).insertStep e = b.insertStep e := by
  by_cases he : b.encoded.isEmpty = true
  · have h1 : b.insertStep e = ⟨b.encoded ++ encodeEntry 0 e, e⟩ := by
      simp [Builder.insertStep, Builder.tryInsertNext, he]
    rw [h1]
    have hne : (b.encoded ++ encodeEntry 0 e).isEmpty = false := by
      rw [List.isEmpty_eq_false]
      intro hc
      exact encodeEntry_ne_nil 0 e (List.append_eq_nil.mp hc).2
    simp [Builder.insertStep, Builder.tryInsertNext, hne]
  · have he2 : b.encoded.isEmpty = false := Bool.eq_false_iff.mpr he
    by_cases hdup : e = b.lastInserted
    · have h1 : b.insertStep e = b := by
        simp [Builder.insertStep, Builder.tryInsertNext, he2, hdup]
      rw [h1, h1]
    · by_cases hlt : ltBytes e b.lastInserted = true
      · have h1 : b.insertStep e = b := by
          simp [Builder.insertStep, Builder.tryInsertNext, he2, hdup, hlt]
        rw [h1, h1]
      · have h1 : b.insertStep e =
            ⟨b.encoded ++
                encodeEntry (sharedLength b.lastInserted e)
                  (e.drop (sharedLength b.lastInserted e)), e⟩ := by
          simp [Builder.insertStep, Builder.tryInsertNext, he2, hdup, hlt]
        rw [h1]
        have hne : (b.encoded ++
            encodeEntry (sharedLength b.lastInserted e)
              (e.drop (sharedLength b.lastInserted e))).isEmpty = false := by
          rw [List.isEmpty_eq_false]
          intro hc
          exact encodeEntry_ne_nil _ _ (List.append_eq_nil.mp hc).2
        simp [Builder.insertStep, Builder.tryInsertNext, hne]

theorem foldl_dedupSorted : ∀ (T : List ByteString) (b : Builder),
    T.foldl Builder.insertStep b = (dedupSorted T).foldl Builder.insertStep b := by
  intro T
  induction T with
  | nil => intro b; rfl
  | cons a T2 ih =>
    intro b
    cases T2 with
    | nil => rfl
    | cons c rest =>
      by_cases hac : a = c
      · subst hac
        rw [dedupSorted, if_pos rfl]
        rw [List.foldl_cons, List.foldl_cons, insertStep_idem]
        rw [← List.foldl_cons]
        exact ih b
      · rw [dedupSorted, if_neg hac]
        rw [List.foldl_cons, List.foldl_cons]
        rw [← List.foldl_cons (f := Builder.insertStep) (b := Builder.insertStep b a)]
        exact ih (Builder.insertStep b a)

theorem FromSorted_dedupSorted (T : List ByteString) :
    LinearSortedStringSet.FromSorted (dedupSorted T) =
      LinearSortedStringSet.FromSorted T := by
  rw [LinearSortedStringSet.FromSorted, LinearSortedStringSet.FromSorted,
    ← foldl_dedupSorted]

/-! ### Move and copy semantics, owned-string insertion -/

/-- Modelled from the spec: move construction/assignment — "move leaves the
source as the empty set" (spec section 3; the moved-from behavior of
`CompactString` is not under src/). Returns (destination, moved-from
source). -/
def LinearSortedStringSet.moveFrom (s : LinearSortedStringSet) :
    LinearSortedStringSet × LinearSortedStringSet :=
  (⟨s.encoded⟩, ⟨[]⟩)

/-- Modelled from the spec: copy construction/assignment — "Copy is a deep
copy" (spec section 3): the destination holds its own copy of the buffer and
the source is left unchanged. Returns (destination, source after the
copy). -/
def LinearSortedStringSet.copyFrom (s : LinearSortedStringSet) :
    LinearSortedStringSet × LinearSortedStringSet :=
  (⟨s.encoded⟩, s)

/-- Modelled from the spec: the `std::string&&` overloads of `InsertNext` /
`TryInsertNext` — "If `std::string&&` is passed, it is moved only if the
result is `true`" (header doc, lines 325 and 342; the .cc `InsertNextImpl`
with its `update_last` hook is not under src/). The second component is the
caller's string after the call: consumed (moved-from, modelled as empty)
exactly when the element was inserted, untouched otherwise. -/
def Builder.tryInsertNextOwned (b : Builder) (element : ByteString) :
    (InsertResult × Builder) × ByteString :=
  match b.tryInsertNext element with
  | (InsertResult.inserted, b2) => ((InsertResult.inserted, b2), [])
  | r => (r, element)

/-- Executable test for strict byte-lexicographic ascent (equivalent to
`StrictAscending`, see `isStrictAscending_iff`). -/
def isStrictAscending : List ByteString → Bool
  | [] => true
  | [_] => true
  | a :: b :: rest => ltBytes a b && isStrictAscending (b :: rest)

theorem isStrictAscending_iff (L : List ByteString) :
    isStrictAscending L = true ↔ StrictAscending L := by
  induction L with
  | nil => simp [isStrictAscending, StrictAscending]
  | cons a L2 ih =>
    cases L2 with
    | nil => simp [isStrictAscending, StrictAscending]
    | cons b rest =>
      rw [isStrictAscending, Bool.and_eq_true, ih]
      show _ ↔ List.Chain' (fun x y => ltBytes x y = true) (a :: b :: rest)
      rw [List.chain'_cons]

/-! ### The claims -/

/-- Claim C1: for every finite, byte-lexicographically ascending,
duplicate-free sequence `S` of byte strings, iterating the set produced by
`FromSorted(S)` from `begin()` to `end()` yields exactly the elements of
`S`, in order. -/
theorem C1_fromSorted_roundTrip {S : List ByteString}
    (h : isStrictAscending S = true) :
    iterToList (LinearSortedStringSet.FromSorted S).beginIter = S := by
  rw [iterToList_beginIter]
  exact FromSorted_elems ((isStrictAscending_iff S).mp h)

/-- Witness for C1 at the concrete ascending sequence
`["ab", "abc", "b"]`. -/
theorem C1_fromSorted_roundTrip_witness :
    isStrictAscending [[97, 98], [97, 98, 99], [98]] = true ∧
      iterToList (LinearSortedStringSet.FromSorted
          [[97, 98], [97, 98, 99], [98]]).beginIter =
        [[97, 98], [97, 98, 99], [98]] :=
  ⟨by decide, C1_fromSorted_roundTrip (by decide)⟩

/-- Claim C2: on a non-empty Builder, `TryInsertNext` of an element
strictly less than the last inserted element reports a failed-precondition
error and leaves the Builder completely unchanged; of an element equal to
the last it reports `false` without appending; of a strictly greater
element it appends exactly one encoded entry, records it as the new last
inserted element, and reports `true`. -/
theorem C2_tryInsertNext_cases (b : Builder) (e1 e2 e3 : ByteString)
    (hne : b.emptyB = false)
    (h1 : ltBytes e1 b.lastInserted = true)
    (h2 : e2 = b.lastInserted)
    (h3 : ltBytes b.lastInserted e3 = true) :
    b.tryInsertNext e1 = (InsertResult.outOfOrder, b) ∧
      b.tryInsertNext e2 = (InsertResult.duplicate, b) ∧
      (b.tryInsertNext e3).1 = InsertResult.inserted ∧
      (b.tryInsertNext e3).2.encoded =
        b.encoded ++
          encodeEntry (sharedLength b.lastInserted e3)
            (e3.drop (sharedLength b.lastInserted e3)) ∧
      (b.tryInsertNext e3).2.lastInserted = e3 := by
  rw [Builder.emptyB] at hne
  have hne1 : e1 ≠ b.lastInserted := by
    intro hc
    rw [hc, ltBytes_irrefl] at h1
    cases h1
  have hne3 : e3 ≠ b.lastInserted := by
    intro hc
    rw [hc, ltBytes_irrefl] at h3
    cases h3
  have hnlt3 : ltBytes e3 b.lastInserted = false := ltBytes_asymm h3
  refine ⟨?_, ?_, ?_, ?_, ?_⟩
  · simp [Builder.tryInsertNext, hne, hne1, h1]
  · simp [Builder.tryInsertNext, hne, h2]
  · simp [Builder.tryInsertNext, hne, hne3, hnlt3]
  · simp [Builder.tryInsertNext, hne, hne3, hnlt3]
  · simp [Builder.tryInsertNext, hne, hne3, hnlt3]

/-- Witness for C2: Builder holding `{"b"}` with `last_ == "b"`, probed
with `"a"` (less), `"b"` (equal) and `"c"` (greater). -/
theorem C2_tryInsertNext_cases_witness :
    (Builder.mk [2, 98] [98]).emptyB = false ∧
      ltBytes [97] [98] = true ∧ ([98] : ByteString) = [98] ∧
      ltBytes [98] [99] = true ∧
      (Builder.mk [2, 98] [98]).tryInsertNext [97] =
        (InsertResult.outOfOrder, Builder.mk [2, 98] [98]) :=
  ⟨by decide, by decide, rfl, by decide,
    (C2_tryInsertNext_cases (Builder.mk [2, 98] [98]) [97] [98] [99]
        (by decide) (by decide) rfl (by decide)).1⟩

/-- Claim C3: for every multiset `M` of byte strings and every permutation
`P` of `M`, `FromUnsorted(P)` constructs a set equal (by the set's own
equality) to `FromSorted` applied to the sorted, duplicate-free sequence of
the elements of `M`. -/
theorem C3_fromUnsorted_equiv (M P : List ByteString) (hperm : P.Perm M) :
    LinearSortedStringSet.EqualImpl (LinearSortedStringSet.FromUnsorted P)
      (LinearSortedStringSet.FromSorted (dedupSorted (sortStrings M))) =
      true := by
  have hsort : sortStrings P = sortStrings M :=
    sorted_perm_unique
      ((perm_sortStrings P).trans (hperm.trans (perm_sortStrings M).symm))
      (pairwise_sortStrings P) (pairwise_sortStrings M)
  rw [LinearSortedStringSet.FromUnsorted, hsort, FromSorted_dedupSorted]
  rw [LinearSortedStringSet.EqualImpl]
  exact (equalSeq_iff _ _).mpr rfl

/-- Witness for C3 at the permutation `["b","a","a"]` of the multiset
`["a","b","a"]`. -/
theorem C3_fromUnsorted_equiv_witness :
    ([[98], [97], [97]] : List ByteString).Perm [[97], [98], [97]] ∧
      LinearSortedStringSet.EqualImpl
        (LinearSortedStringSet.FromUnsorted [[98], [97], [97]])
        (LinearSortedStringSet.FromSorted
          (dedupSorted (sortStrings [[97], [98], [97]]))) = true :=
  ⟨by decide, C3_fromUnsorted_equiv [[97], [98], [97]] [[98], [97], [97]]
    (by decide)⟩

/-- Counterexample for C4 as stated: the claim asserts that equality of the
raw encoded buffers is not *sufficient* for set equality, i.e. that some
two sets with identical encoded buffers compare unequal; this is false —
`EqualImpl` is a function of the buffer, so byte-identical buffers always
compare equal. -/
theorem C4_sufficiency_refuted : ¬ ∃ a b : LinearSortedStringSet,
    a.encoded = b.encoded ∧ LinearSortedStringSet.EqualImpl a b = false := by
  rintro ⟨a, b, henc, heq⟩
  have helems : a.elems = b.elems := by
    rw [LinearSortedStringSet.elems, LinearSortedStringSet.elems, henc]
  rw [LinearSortedStringSet.EqualImpl, helems, (equalSeq_iff _ _).mpr rfl]
    at heq
  cases heq

/-- Claim C4 (amended): for every pair of sets `a` and `b`, `a == b` holds
iff their decoded element sequences are identical element-by-element;
equality of the raw encoded buffers is sufficient but not *necessary*, so
two sets whose encodings differ byte-wise (e.g. by different shared-length
choices) may still be equal. -/
theorem C4_equality_over_decoded :
    (∀ a b : LinearSortedStringSet,
        LinearSortedStringSet.EqualImpl a b = true ↔ a.elems = b.elems) ∧
      (∀ a b : LinearSortedStringSet, a.encoded = b.encoded →
        LinearSortedStringSet.EqualImpl a b = true) ∧
      ∃ a b : LinearSortedStringSet, a.encoded ≠ b.encoded ∧
        LinearSortedStringSet.EqualImpl a b = true := by
  refine ⟨fun a b => equalSeq_iff _ _, fun a b henc => ?_, ?_⟩
  · have helems : a.elems = b.elems := by
      rw [LinearSortedStringSet.elems, LinearSortedStringSet.elems, henc]
    rw [LinearSortedStringSet.EqualImpl, helems]
    exact (equalSeq_iff _ _).mpr rfl
  · refine ⟨LinearSortedStringSet.FromSorted [[97, 97], [97, 98]],
      ⟨[4, 97, 97, 4, 97, 98]⟩, by decide, by decide⟩

/-- Witness for C4 (amended): the sufficiency direction applied to two
structurally equal sets. -/
theorem C4_equality_over_decoded_witness :
    (LinearSortedStringSet.mk [2, 97]).encoded =
        (LinearSortedStringSet.mk [2, 97]).encoded ∧
      LinearSortedStringSet.EqualImpl (LinearSortedStringSet.mk [2, 97])
        (LinearSortedStringSet.mk [2, 97]) = true :=
  ⟨rfl, C4_equality_over_decoded.2.1 (LinearSortedStringSet.mk [2, 97])
    (LinearSortedStringSet.mk [2, 97]) rfl⟩

/-- Claim C5: the hash of a set combines a hash of every decoded element in
iteration order followed by the element count; consequently any two sets
that are equal under the set's equality hash identically, for every choice
of combining functions and seed, regardless of the shared-length choices
inside their encodings. -/
theorem C5_hash_consistency (combine : Nat → ByteString → Nat)
    (combineSize : Nat → Nat → Nat) (h0 : Nat)
    (s a b : LinearSortedStringSet)
    (heq : LinearSortedStringSet.EqualImpl a b = true) :
    LinearSortedStringSet.AbslHashValueImpl combine combineSize h0 s =
        combineSize (s.elems.foldl combine h0) s.size ∧
      LinearSortedStringSet.AbslHashValueImpl combine combineSize h0 a =
        LinearSortedStringSet.AbslHashValueImpl combine combineSize h0 b := by
  have helems : a.elems = b.elems := (equalSeq_iff _ _).mp heq
  constructor
  · rfl
  · rw [LinearSortedStringSet.AbslHashValueImpl,
      LinearSortedStringSet.AbslHashValueImpl, helems]

/-- Witness for C5: two byte-different encodings of `{"aa","ab"}` (maximal
shared length versus no sharing) hash identically under a sample combine
function. -/
theorem C5_hash_consistency_witness :
    LinearSortedStringSet.EqualImpl
        (LinearSortedStringSet.mk [4, 97, 97, 3, 1, 98])
        (LinearSortedStringSet.mk [4, 97, 97, 4, 97, 98]) = true ∧
      LinearSortedStringSet.AbslHashValueImpl
          (fun h e => 31 * h + e.sum) (fun h n => 31 * h + n) 7
          (LinearSortedStringSet.mk [4, 97, 97, 3, 1, 98]) =
        LinearSortedStringSet.AbslHashValueImpl
          (fun h e => 31 * h + e.sum) (fun h n => 31 * h + n) 7
          (LinearSortedStringSet.mk [4, 97, 97, 4, 97, 98]) :=
  ⟨by decide,
    (C5_hash_consistency (fun h e => 31 * h + e.sum) (fun h n => 31 * h + n) 7
        (LinearSortedStringSet.mk [4, 97, 97, 3, 1, 98])
        (LinearSortedStringSet.mk [4, 97, 97, 3, 1, 98])
        (LinearSortedStringSet.mk [4, 97, 97, 4, 97, 98]) (by decide)).2⟩

/-- Claim C6: for every set `S` (whose decoded sequence satisfies the Set
invariant of strict ascent) and byte string `x`, `contains(x)` returns
`true` iff `x` is one of the decoded elements; the scan decodes entries in
order, returns `true` on an exact match and `false` as soon as a decoded
element compares strictly greater than `x`. -/
theorem C6_contains_iff (s : LinearSortedStringSet) (x : ByteString)
    (h : isStrictAscending s.elems = true) :
    s.contains x = true ↔ x ∈ s.elems :=
  containsFrom_iff ((isStrictAscending_iff _).mp h) x

/-- Witness for C6 at the set `{"ab","abc","b"}` and the probe `"a"` (cf.
the membership examples of spec section 8). -/
theorem C6_contains_iff_witness :
    isStrictAscending
        (LinearSortedStringSet.FromSorted
          [[97, 98], [97, 98, 99], [98]]).elems = true ∧
      ((LinearSortedStringSet.FromSorted
            [[97, 98], [97, 98, 99], [98]]).contains [97] = true ↔
        [97] ∈ (LinearSortedStringSet.FromSorted
            [[97, 98], [97, 98, 99], [98]]).elems) :=
  ⟨by decide,
    C6_contains_iff (LinearSortedStringSet.FromSorted
      [[97, 98], [97, 98, 99], [98]]) [97] (by decide)⟩

/-- Claim C7: dereferencing or advancing an `end()` iterator, and calling
`Builder::last()` on an empty Builder, hit the fatal `RIEGELI_ASSERT`
contract checks (modelled as returning `none`); under the stated
preconditions — iterator not `end()`, builder not empty — the assertion
branch is unreachable and the operations produce a value. -/
theorem C7_fatal_contracts (it : SetIterator) (b bempty : Builder)
    (hit : it ≠ LinearSortedStringSet.endIter)
    (hb : b.emptyB = false) (hbe : bempty.emptyB = true) :
    (iterDeref it).isSome = true ∧ (iterAdvance it).isSome = true ∧
      b.lastChecked.isSome = true ∧
      iterDeref LinearSortedStringSet.endIter = none ∧
      iterAdvance LinearSortedStringSet.endIter = none ∧
      bempty.lastChecked = none := by
  rw [Builder.emptyB] at hb hbe
  cases it with
  | none => exact absurd rfl hit
  | some p =>
    cases p with
    | mk cur rest =>
      refine ⟨rfl, rfl, ?_, rfl, rfl, ?_⟩
      · simp [Builder.lastChecked, hb]
      · simp [Builder.lastChecked, hbe]

/-- Witness for C7: a live iterator over `{"a"}`, a builder holding
`{"b"}`, and a fresh builder. -/
theorem C7_fatal_contracts_witness :
    (some ([97], []) : SetIterator) ≠ LinearSortedStringSet.endIter ∧
      (Builder.mk [2, 98] [98]).emptyB = false ∧
      Builder.init.emptyB = true ∧
      (iterDeref (some ([97], []))).isSome = true :=
  ⟨by decide, by decide, by decide,
    (C7_fatal_contracts (some ([97], [])) (Builder.mk [2, 98] [98])
        Builder.init (by decide) (by decide) (by decide)).1⟩

/-- Claim C8: after move-constructing or move-assigning from a set `s`, the
moved-from `s` is the empty set — `empty()` is true and it compares equal
to a default-constructed set — while copying produces a deep copy that
leaves the source unchanged. -/
theorem C8_move_copy (s : LinearSortedStringSet) :
    s.moveFrom.1 = s ∧ s.moveFrom.2.empty = true ∧
      LinearSortedStringSet.EqualImpl s.moveFrom.2
        LinearSortedStringSet.emptySet = true ∧
      s.copyFrom.1 = s ∧ s.copyFrom.2 = s := by
  cases s with
  | mk enc => exact ⟨rfl, rfl, rfl, rfl, rfl⟩

/-- Claim C9: for every Builder and every owned (`std::string&&`) element
passed to `InsertNext`/`TryInsertNext`, the string is moved from only when
the result is `true`; when the element equals the last inserted element
(result `false`) or is out of order (error result), the caller's string is
left unchanged. -/
theorem C9_moved_only_if_inserted (b : Builder) (e : ByteString)
    (h : (b.tryInsertNextOwned e).1.1 ≠ InsertResult.inserted) :
    (b.tryInsertNextOwned e).2 = e ∧
      (b.tryInsertNextOwned e).1 = b.tryInsertNext e := by
  rw [Builder.tryInsertNextOwned] at h ⊢
  cases hr : b.tryInsertNext e with
  | mk r b2 =>
    cases r with
    | inserted => rw [hr] at h; exact absurd rfl h
    | duplicate => exact ⟨rfl, rfl⟩
    | outOfOrder => exact ⟨rfl, rfl⟩

/-- Witness for C9: inserting the duplicate `"b"` into a builder whose last
inserted element is `"b"` leaves the caller's string untouched. -/
theorem C9_moved_only_if_inserted_witness :
    ((Builder.mk [2, 98] [98]).tryInsertNextOwned [98]).1.1 ≠
        InsertResult.inserted ∧
      ((Builder.mk [2, 98] [98]).tryInsertNextOwned [98]).2 = [98] :=
  ⟨by decide,
    (C9_moved_only_if_inserted (Builder.mk [2, 98] [98]) [98] (by decide)).1⟩

/-- Claim C10: for every Builder in any state — including one already
consumed by `Build()` — `Reset()` makes it equivalent to a newly
constructed Builder: it is empty afterwards and a fresh insertion of any
element is accepted again. -/
theorem C10_reset_fresh (b : Builder) (e : ByteString) :
    b.reset = Builder.init ∧ b.reset.emptyB = true ∧
      (b.reset.tryInsertNext e).1 = InsertResult.inserted :=
  ⟨rfl, rfl, rfl⟩
